import Mathlib

/-
Verification of `spectree/spec.py` (the `SpecTree` class).

The Python code manipulates dictionaries (`self.models`, the `routes` and
`tags` accumulators of `_generate_spec`, pydantic schema dicts) and sets
attributes on handler functions.  We embed:

  * Python dicts as insertion-ordered association lists with unique keys
    (`Dict`), with `dinsert` matching `d[k] = v` (overwrite in place,
    append when fresh) and `dget` matching `d.get(k)`;
  * a pydantic `model.schema()` result as a `ModelSchema`: the optional
    nested `definitions` sub-map is explicit (its entries abstracted), the
    remaining schema content is opaque;
  * a handler function object as a `Handler` carrying the attributes that
    `SpecTree` reads or writes (`query`/`json`/`headers`/`cookies`/`resp`/
    `tags`/`_decorator`, collected in a `RouteMeta`), plus the data the
    external `parse_name`/`parse_comments` utilities extract from it;
  * the framework plugin (`self.backend`) as explicit route data plus the
    external `parse_params`/`parse_resp`/`parse_request` utilities passed
    in as opaque function parameters.
-/

namespace Spectree

/-- Insertion-ordered association list standing for a Python `dict`. -/
abbrev Dict (κ α : Type) : Type := List (κ × α)

/-- `d.get(k)`: the value stored under `k`, if any. -/
def dget {κ α : Type} [DecidableEq κ] : Dict κ α → κ → Option α
  | [], _ => none
  | (k', v) :: rest, k => if k' = k then some v else dget rest k

/-- `d[k] = v`: overwrite in place when `k` is present, append otherwise
(Python dicts keep the original position of an overwritten key). -/
def dinsert {κ α : Type} [DecidableEq κ] : Dict κ α → κ → α → Dict κ α
  | [], k, v => [(k, v)]
  | (k', v') :: rest, k, v =>
    if k' = k then (k, v) :: rest else (k', v') :: dinsert rest k v

/-- `k in d`. -/
def dcontains {κ α : Type} [DecidableEq κ] (d : Dict κ α) (k : κ) : Bool :=
  (dget d k).isSome

/-- Insert a list of bindings left to right (a sequence of `d[k] = v`). -/
def insertAll {κ α : Type} [DecidableEq κ] (d : Dict κ α) (l : List (κ × α)) : Dict κ α :=
  l.foldl (fun acc p => dinsert acc p.1 p.2) d

/-- The value of the LAST binding of `k` in `l` (later bindings win),
`none` when `k` is unbound.  This is what a sequence of dict inserts
leaves behind. -/
def lastEntry {κ α : Type} [DecidableEq κ] : List (κ × α) → κ → Option α
  | [], _ => none
  | p :: rest, k =>
    match lastEntry rest k with
    | some v => some v
    | none => if p.1 = k then some p.2 else none

theorem dget_dinsert {κ α : Type} [DecidableEq κ] (d : Dict κ α) (k k' : κ) (v : α) :
    dget (dinsert d k v) k' = if k = k' then some v else dget d k' := by
  induction d with
  | nil =>
    by_cases h : k = k' <;> simp [dinsert, dget, h]
  | cons p rest ih =>
    obtain ⟨k₀, v₀⟩ := p
    simp only [dinsert]
    by_cases h₀ : k₀ = k
    · subst h₀
      by_cases h : k₀ = k' <;> simp [dget, h]
    · rw [if_neg h₀]
      by_cases h : k₀ = k'
      · have hkk : ¬ k = k' := fun hc => h₀ (h.trans hc.symm)
        simp [dget, h, hkk]
      · simp [dget, h, ih]

theorem dget_dinsert_self {κ α : Type} [DecidableEq κ] (d : Dict κ α) (k : κ) (v : α) :
    dget (dinsert d k v) k = some v := by
  simp [dget_dinsert]

theorem dget_dinsert_ne {κ α : Type} [DecidableEq κ] (d : Dict κ α) (k k' : κ) (v : α)
    (h : k ≠ k') : dget (dinsert d k v) k' = dget d k' := by
  simp [dget_dinsert, h]

theorem dcontains_dinsert {κ α : Type} [DecidableEq κ] (d : Dict κ α) (k k' : κ) (v : α) :
    dcontains (dinsert d k v) k' = (decide (k = k') || dcontains d k') := by
  by_cases h : k = k' <;> simp [dcontains, dget_dinsert, h]

theorem lastEntry_append {κ α : Type} [DecidableEq κ] (a b : List (κ × α)) (k : κ) :
    lastEntry (a ++ b) k =
      match lastEntry b k with
      | some v => some v
      | none => lastEntry a k := by
  induction a with
  | nil => cases h : lastEntry b k <;> simp [lastEntry, h]
  | cons p rest ih =>
    simp only [List.cons_append, lastEntry, List.append_eq]
    rw [ih]
    cases h : lastEntry b k <;> cases h' : lastEntry rest k <;> simp [h, h']

theorem lastEntry_eq_none_of_not_mem {κ α : Type} [DecidableEq κ]
    (l : List (κ × α)) (k : κ) (h : k ∉ l.map Prod.fst) : lastEntry l k = none := by
  induction l with
  | nil => rfl
  | cons p rest ih =>
    simp only [List.map_cons, List.mem_cons] at h
    push_neg at h
    have h1 : p.1 ≠ k := Ne.symm h.1
    have h2 := ih h.2
    simp [lastEntry, h2, h1]

theorem lastEntry_isSome_of_mem {κ α : Type} [DecidableEq κ]
    (l : List (κ × α)) (k : κ) (v : α) (h : (k, v) ∈ l) : (lastEntry l k).isSome := by
  induction l with
  | nil => simp at h
  | cons p rest ih =>
    rcases List.mem_cons.1 h with h' | h'
    · subst h'
      cases h'' : lastEntry rest k <;> simp [lastEntry, h'']
    · have := ih h'
      cases h'' : lastEntry rest k
      · rw [h''] at this; simp at this
      · simp [lastEntry, h'']

theorem lastEntry_of_nodup_mem {κ α : Type} [DecidableEq κ]
    (l : List (κ × α)) (k : κ) (v : α) (hnd : (l.map Prod.fst).Nodup)
    (h : (k, v) ∈ l) : lastEntry l k = some v := by
  induction l with
  | nil => simp at h
  | cons p rest ih =>
    simp only [List.map_cons, List.nodup_cons] at hnd
    rcases List.mem_cons.1 h with h' | h'
    · subst h'
      have : k ∉ rest.map Prod.fst := by simpa using hnd.1
      simp [lastEntry, lastEntry_eq_none_of_not_mem rest k this]
    · have hk : lastEntry rest k = some v := ih hnd.2 h'
      simp [lastEntry, hk]

theorem dget_insertAll {κ α : Type} [DecidableEq κ] (l : List (κ × α)) (d : Dict κ α) (k : κ) :
    dget (insertAll d l) k =
      match lastEntry l k with
      | some v => some v
      | none => dget d k := by
  induction l generalizing d with
  | nil => rfl
  | cons p rest ih =>
    simp only [insertAll, List.foldl_cons] at *
    rw [ih]
    cases h : lastEntry rest k with
    | some v => simp [lastEntry, h]
    | none =>
      by_cases hk : p.1 = k
      · subst hk; simp [lastEntry, h, dget_dinsert]
      · simp [lastEntry, h, hk, dget_dinsert_ne _ _ _ _ hk]

theorem dget_insertAll_of_not_mem {κ α : Type} [DecidableEq κ]
    (l : List (κ × α)) (d : Dict κ α) (k : κ) (h : k ∉ l.map Prod.fst) :
    dget (insertAll d l) k = dget d k := by
  rw [dget_insertAll, lastEntry_eq_none_of_not_mem l k h]

theorem dget_insertAll_of_nodup_mem {κ α : Type} [DecidableEq κ]
    (l : List (κ × α)) (d : Dict κ α) (k : κ) (v : α)
    (hnd : (l.map Prod.fst).Nodup) (h : (k, v) ∈ l) :
    dget (insertAll d l) k = some v := by
  rw [dget_insertAll, lastEntry_of_nodup_mem l k v hnd h]

/-! ## Data model: schemas, handler attributes -/

/-- Result of pydantic `model.schema()`: a JSON-object dict whose optional
nested `definitions` key holds a sub-map of referenced sub-type fragments
(fragments abstracted as `Nat`); the remaining schema content is opaque. -/
structure ModelSchema where
  definitions : Option (Dict String Nat)
  body : Nat
deriving DecidableEq

/-- A pydantic `BaseModel` subclass: its `__name__` and its `.schema()`. -/
structure PyModel where
  name : String
  schema : ModelSchema
deriving DecidableEq

/-- A value passed for `query`/`json`/`headers`/`cookies`: either a proper
`BaseModel` subclass, or any other Python value (abstracted), for which
`assert issubclass(model, BaseModel)` raises at decoration time. -/
inductive SchemaArg where
  | model : PyModel → SchemaArg
  | notModel : Nat → SchemaArg
deriving DecidableEq

/-- A `spectree.Response` descriptor: exposes the models it references via
`.models` (its status-code structure is irrelevant to `spec.py`). -/
structure Resp where
  models : List PyModel
deriving DecidableEq

/-- The four request roles processed by `SpecTree._base`, in source order. -/
inductive Role where
  | query | json | headers | cookies
deriving DecidableEq

/-- The attributes `SpecTree` reads or writes on a handler function object:
`query`/`json`/`headers`/`cookies` (model names), `resp`, `tags`, and the
`_decorator` ownership marker.  `none` / `[]` model an absent attribute
(the `getattr(..., default)` reads). -/
structure RouteMeta where
  query : Option String := none
  json : Option String := none
  headers : Option String := none
  cookies : Option String := none
  resp : Option Resp := none
  tags : List String := []
  decorator : Option Nat := none
deriving DecidableEq

def RouteMeta.setRole (m : RouteMeta) : Role → String → RouteMeta
  | .query, v => { m with query := some v }
  | .json, v => { m with json := some v }
  | .headers, v => { m with headers := some v }
  | .cookies, v => { m with cookies := some v }

def RouteMeta.getRole (m : RouteMeta) : Role → Option String
  | .query => m.query
  | .json => m.json
  | .headers => m.headers
  | .cookies => m.cookies

/-- A handler function object: `parse_name` yields `name` (`__name__`),
`parse_comments` yields `summary`/`desc` (from `__doc__`), and `meta` holds
the attributes of the function's `__dict__` that `SpecTree` uses.
Documentation instances (`SpecTree` objects) are identified by a `Nat` id;
distinct instances compare unequal under Python `==` (default object
identity). -/
structure Handler where
  name : String
  summary : Option String := none
  desc : Option String := none
  meta : RouteMeta := {}
deriving DecidableEq

/-! ## The decorator (`SpecTree._base`, `doc`, `validate`) -/

/-- The `zip(('query', 'json', 'headers', 'cookies'), (query, json, headers,
cookies))` iterated by the registration loop of `SpecTree._base`. -/
def roleArgs (q j h c : Option SchemaArg) : List (Role × Option SchemaArg) :=
  [(.query, q), (.json, j), (.headers, h), (.cookies, c)]

/-- The registration loop of `SpecTree._base`:
for each provided model, `assert issubclass(model, BaseModel)` (a failed
assert aborts the loop: resulting flag `false`), then
`self.models[model.__name__] = model.schema()` and
`setattr(validation, name, model.__name__)`. -/
def registerLoop (st : Dict String ModelSchema) (meta : RouteMeta) :
    List (Role × Option SchemaArg) → Dict String ModelSchema × RouteMeta × Bool
  | [] => (st, meta, true)
  | (role, arg) :: rest =>
    match arg with
    | none => registerLoop st meta rest
    | some (.model m) => registerLoop (dinsert st m.name m.schema) (meta.setRole role m.name) rest
    | some (.notModel _) => (st, meta, false)

/-- The wrapper returned by `SpecTree._base` applied to a handler `f`, at the
metadata/registry level shared by `doc` and `validate`.  `validator_func(func)`
builds a fresh wrapper function whose `functools.wraps` call copies `f`'s
`__name__`, `__doc__` and `__dict__`; then the registration loop runs, then
`resp`/`tags` handling, then `validation._decorator = self`.  Returns the
updated model registry, the wrapper object, and `true` iff no exception was
raised (on `false` the registry and wrapper updates made before the failing
assert persist, and the later attribute writes never happen). -/
def baseDecorate (selfId : Nat) (q j h c : Option SchemaArg) (resp : Option Resp)
    (tags : List String) (f : Handler) (st : Dict String ModelSchema) :
    Dict String ModelSchema × Handler × Bool :=
  let validation : Handler := { name := f.name, summary := f.summary, desc := f.desc, meta := f.meta }
  let r := registerLoop st validation.meta (roleArgs q j h c)
  match r with
  | (st1, meta1, true) =>
    let st2 := match resp with
      | some rsp => insertAll st1 (rsp.models.map (fun m => (m.name, m.schema)))
      | none => st1
    let meta2 := match resp with
      | some rsp => { meta1 with resp := some rsp }
      | none => meta1
    let meta3 := if tags ≠ [] then { meta2 with tags := tags } else meta2
    (st2, { validation with meta := { meta3 with decorator := some selfId } }, true)
  | (st1, meta1, false) => (st1, { validation with meta := meta1 }, false)

/-- `SpecTree.doc` at the registry/metadata level (it is `_base` applied to
`empty_validator`; the validator choice affects only call-time behavior). -/
def doc (selfId : Nat) (q j h c : Option SchemaArg) (resp : Option Resp)
    (tags : List String) (f : Handler) (st : Dict String ModelSchema) :
    Dict String ModelSchema × Handler × Bool :=
  baseDecorate selfId q j h c resp tags f st

/-- `SpecTree.validate` at the registry/metadata level (it is `_base` applied
to the backend-validating wrapper). -/
def validate (selfId : Nat) (q j h c : Option SchemaArg) (resp : Option Resp)
    (tags : List String) (f : Handler) (st : Dict String ModelSchema) :
    Dict String ModelSchema × Handler × Bool :=
  baseDecorate selfId q j h c resp tags f st

/-- The call-time behavior of the wrapper built by `empty_validator` inside
`SpecTree.doc`: `def wrapper(*args, **kwargs): return func(*args, **kwargs)`
(the argument tuple is modeled as a single value of type `α`). -/
def empty_validator {α β : Type} (func : α → β) : α → β :=
  fun args => func args

/-! ### Facts about the registration loop -/

/-- The `(name, schema)` pairs the loop registers, in order. -/
def regModels : List (Role × Option SchemaArg) → List (String × ModelSchema)
  | [] => []
  | (_, arg) :: rest =>
    match arg with
    | some (.model m) => (m.name, m.schema) :: regModels rest
    | _ => regModels rest

/-- The `(role, name)` attribute writes the loop performs, in order. -/
def regRoles : List (Role × Option SchemaArg) → List (Role × String)
  | [] => []
  | (role, arg) :: rest =>
    match arg with
    | some (.model m) => (role, m.name) :: regRoles rest
    | _ => regRoles rest

/-- An argument the assert accepts: absent, or a `BaseModel` subclass. -/
def validArg : Option SchemaArg → Prop
  | none => True
  | some (.model _) => True
  | some (.notModel _) => False

def setRoles (meta : RouteMeta) (l : List (Role × String)) : RouteMeta :=
  l.foldl (fun m p => m.setRole p.1 p.2) meta

theorem getRole_setRole (m : RouteMeta) (r r' : Role) (v : String) :
    (m.setRole r v).getRole r' = if r = r' then some v else m.getRole r' := by
  cases r <;> cases r' <;> simp [RouteMeta.setRole, RouteMeta.getRole]

theorem getRole_setRoles (l : List (Role × String)) (meta : RouteMeta) (r : Role) :
    (setRoles meta l).getRole r =
      match lastEntry l r with
      | some v => some v
      | none => meta.getRole r := by
  induction l generalizing meta with
  | nil => rfl
  | cons p rest ih =>
    simp only [setRoles, List.foldl_cons] at *
    rw [ih]
    cases h : lastEntry rest r with
    | some v => simp [lastEntry, h]
    | none =>
      by_cases hr : p.1 = r
      · subst hr; simp [lastEntry, h, getRole_setRole]
      · simp [lastEntry, h, hr, getRole_setRole]

/-- When every argument passes the assert, the loop registers all provided
models, sets all provided role attributes, and succeeds. -/
theorem registerLoop_valid (l : List (Role × Option SchemaArg))
    (st : Dict String ModelSchema) (meta : RouteMeta)
    (h : ∀ p ∈ l, validArg p.2) :
    registerLoop st meta l = (insertAll st (regModels l), setRoles meta (regRoles l), true) := by
  induction l generalizing st meta with
  | nil => rfl
  | cons p rest ih =>
    obtain ⟨role, arg⟩ := p
    have hhd : validArg arg := h (role, arg) (List.mem_cons_self _ _)
    have htl : ∀ p ∈ rest, validArg p.2 := fun p hp => h p (List.mem_cons_of_mem _ hp)
    match arg with
    | none => simpa [registerLoop, regModels, regRoles] using ih st meta htl
    | some (.model m) =>
      simpa [registerLoop, regModels, regRoles, insertAll, setRoles] using
        ih (dinsert st m.name m.schema) (meta.setRole role m.name) htl
    | some (.notModel x) => exact absurd hhd (by simp [validArg])

/-- The loop aborts (flag `false`) exactly when some provided argument is not
a `BaseModel` subclass. -/
theorem registerLoop_fails_iff (l : List (Role × Option SchemaArg))
    (st : Dict String ModelSchema) (meta : RouteMeta) :
    (registerLoop st meta l).2.2 = false ↔ ∃ p ∈ l, ∃ x, p.2 = some (.notModel x) := by
  induction l generalizing st meta with
  | nil => simp [registerLoop]
  | cons p rest ih =>
    obtain ⟨role, arg⟩ := p
    match arg with
    | none =>
      rw [show registerLoop st meta ((role, none) :: rest) = registerLoop st meta rest from rfl]
      rw [ih st meta]
      constructor
      · rintro ⟨p, hp, hx⟩; exact ⟨p, List.mem_cons_of_mem _ hp, hx⟩
      · rintro ⟨p, hp, x, hx⟩
        rcases List.mem_cons.1 hp with h' | h'
        · rw [h'] at hx; simp at hx
        · exact ⟨p, h', x, hx⟩
    | some (.model m) =>
      rw [show registerLoop st meta ((role, some (.model m)) :: rest)
            = registerLoop (dinsert st m.name m.schema) (meta.setRole role m.name) rest from rfl]
      rw [ih]
      constructor
      · rintro ⟨p, hp, hx⟩; exact ⟨p, List.mem_cons_of_mem _ hp, hx⟩
      · rintro ⟨p, hp, x, hx⟩
        rcases List.mem_cons.1 hp with h' | h'
        · rw [h'] at hx; simp at hx
        · exact ⟨p, h', x, hx⟩
    | some (.notModel x) =>
      simp [registerLoop]

/-- A failing loop stops at the first invalid argument: the registrations and
attribute writes of the valid prefix have already happened and are kept. -/
theorem registerLoop_stops_at_invalid (pre post : List (Role × Option SchemaArg))
    (role : Role) (x : Nat) (st : Dict String ModelSchema) (meta : RouteMeta)
    (hpre : ∀ p ∈ pre, validArg p.2) :
    registerLoop st meta (pre ++ (role, some (.notModel x)) :: post)
      = (insertAll st (regModels pre), setRoles meta (regRoles pre), false) := by
  induction pre generalizing st meta with
  | nil => rfl
  | cons p rest ih =>
    obtain ⟨r0, arg⟩ := p
    have hhd : validArg arg := hpre (r0, arg) (List.mem_cons_self _ _)
    have htl : ∀ p ∈ rest, validArg p.2 := fun p hp => hpre p (List.mem_cons_of_mem _ hp)
    match arg with
    | none => simpa [registerLoop, regModels, regRoles] using ih st meta htl
    | some (.model m) =>
      simpa [registerLoop, regModels, regRoles, insertAll, setRoles] using
        ih (dinsert st m.name m.schema) (meta.setRole r0 m.name) htl
    | some (.notModel y) => exact absurd hhd (by simp [validArg])

/-! ## Ownership / bypass resolver (`SpecTree.bypass`) -/

/-- `SpecTree.bypass(func)`, with `self.config.MODE` and `self` passed
explicitly and `getattr(func, '_decorator', None)` read from the handler's
attributes.  Any mode other than `greedy`/`strict` takes the default
(`normal`) branch, exactly as the `if/elif/else` does. -/
def bypass (mode : String) (selfId : Nat) (func : Handler) : Bool :=
  if mode = "greedy" then false
  else if mode = "strict" then
    if func.meta.decorator = some selfId then false else true
  else
    match func.meta.decorator with
    | some d => if d = selfId then false else true
    | none => false

/-! ## Spec assembly (`SpecTree._generate_spec`, `_get_model_definitions`,
`SpecTree.spec`) -/

/-- Construction-time configuration (`spectree.config.Config` fields that
`spec.py` reads). -/
structure Config where
  MODE : String
  TITLE : String
  VERSION : String
  OPENAPI_VERSION : String
deriving DecidableEq

/-- One `(method, func)` pair from `backend.parse_func(route)`, together with
the framework-specific `backend.bypass(func, method)` verdict. -/
structure RouteEntry where
  method : String
  backendBypass : Bool
  func : Handler
deriving DecidableEq

/-- One route handle from `backend.find_routes()`, with the
`backend.parse_path(route)` result (`path`, `parameters` — parameter
descriptors abstracted as `Nat`) and its `(method, func)` pairs. -/
structure Route where
  path : String
  parameters : List Nat
  entries : List RouteEntry
deriving DecidableEq

/-- The external helpers of `spectree.utils` used by `_generate_spec`
(`parse_params`, `parse_resp`, `parse_request`), treated as injected
dependencies with opaque outputs.  A `parse_request` result of `none`
stands for a falsy value (`None` or `{}`), for which the `requestBody` key
is not added. -/
structure Backend where
  parseParams : Handler → List Nat → Dict String ModelSchema → Nat
  parseResp : Handler → Nat
  parseRequest : Handler → Option Nat

/-- One operation object of the generated document.  `requestBody := none`
models the absent key. -/
structure Operation where
  summary : String
  operationID : String
  description : String
  tags : List String
  parameters : Nat
  responses : Nat
  requestBody : Option Nat
deriving DecidableEq

/-- Python `s.lower()`: per-character lowercasing (what Lean's
`String.toLower` computes, written structurally so the kernel can
evaluate it). -/
def pyLower (s : String) : String := ⟨s.data.map Char.toLower⟩

/-- Python `x or d` for an optional string `x`: the empty string is falsy. -/
def pyOr (s : Option String) (d : String) : String :=
  match s with
  | some t => if t = "" then d else t
  | none => d

/-- Whether `_generate_spec` skips a `(method, func)` pair:
`self.backend.bypass(func, method) or self.bypass(func)`. -/
def skipEntry (mode : String) (selfId : Nat) (e : RouteEntry) : Bool :=
  e.backendBypass || bypass mode selfId e.func

/-- The operation dict `_generate_spec` builds for a non-skipped pair. -/
def mkOp (be : Backend) (models : Dict String ModelSchema) (params : List Nat)
    (method : String) (f : Handler) : Operation :=
  { summary := pyOr f.summary (f.name ++ " <" ++ method ++ ">")
    operationID := f.name ++ "__" ++ (pyLower method)
    description := pyOr f.desc ""
    tags := f.meta.tags
    parameters := be.parseParams f params models
    responses := be.parseResp f
    requestBody := be.parseRequest f }

/-- `for tag in getattr(func, 'tags', []): if tag not in tags:
tags[tag] = dict with name tag` — the tag object is determined by the tag
string, so it is stored as the string itself. -/
def updateTags (acc : Dict String String) (funcTags : List String) : Dict String String :=
  funcTags.foldl (fun acc tag => if dcontains acc tag then acc else dinsert acc tag tag) acc

/-- The inner loop of `_generate_spec` over `parse_func(route)`. -/
def processEntries (mode : String) (selfId : Nat) (be : Backend)
    (models : Dict String ModelSchema) (path : String) (params : List Nat) :
    List RouteEntry → Dict String (Dict String Operation) × Dict String String →
    Dict String (Dict String Operation) × Dict String String
  | [], acc => acc
  | e :: rest, (paths, tags) =>
    if skipEntry mode selfId e then
      processEntries mode selfId be models path params rest (paths, tags)
    else
      let tags' := updateTags tags e.func.meta.tags
      let inner := (dget paths path).getD []
      let paths' := dinsert paths path
        (dinsert inner (pyLower e.method) (mkOp be models params e.method e.func))
      processEntries mode selfId be models path params rest (paths', tags')

/-- The outer loop of `_generate_spec` over `find_routes()`; the
`routes[path] = routes.get(path, dict())` touch happens before the pairs of
the route are examined. -/
def processRoutes (mode : String) (selfId : Nat) (be : Backend)
    (models : Dict String ModelSchema) :
    List Route → Dict String (Dict String Operation) × Dict String String →
    Dict String (Dict String Operation) × Dict String String
  | [], acc => acc
  | r :: rest, (paths, tags) =>
    let paths0 := dinsert paths r.path ((dget paths r.path).getD [])
    let acc' := processEntries mode selfId be models r.path r.parameters r.entries (paths0, tags)
    processRoutes mode selfId be models rest acc'

/-- `SpecTree._get_model_definitions`: walks the stored schemas in order;
for each one carrying a nested `definitions` sub-map, copies its entries
into the output map (later entries overwrite earlier ones) and deletes the
`definitions` key from the stored schema (an in-place mutation — the
stripped registry is returned alongside the collected map). -/
def getModelDefinitions :
    Dict String ModelSchema → Dict String Nat → Dict String ModelSchema × Dict String Nat
  | [], defs => ([], defs)
  | (nm, s) :: rest, defs =>
    match s.definitions with
    | some d =>
      let r := getModelDefinitions rest (insertAll defs d)
      ((nm, { s with definitions := none }) :: r.1, r.2)
    | none =>
      let r := getModelDefinitions rest defs
      ((nm, s) :: r.1, r.2)

/-- The generated OpenAPI document. -/
structure SpecDoc where
  openapi : String
  title : String
  version : String
  tags : List String
  paths : Dict String (Dict String Operation)
  schemas : Dict String ModelSchema
  definitions : Dict String Nat
deriving DecidableEq

/-- The mutable state of a `SpecTree` instance that `spec.py` touches:
its identity, config, model registry, and the memoized `_spec` attribute
(`none` = attribute absent). -/
structure SpecState where
  selfId : Nat
  config : Config
  models : Dict String ModelSchema
  cachedSpec : Option SpecDoc := none
deriving DecidableEq

/-- `SpecTree._generate_spec`.  The spec dict literal evaluates
`components.schemas` as the shallow copy of `self.models` BEFORE calling
`_get_model_definitions`, but that copy shares the schema dict objects that
`_get_model_definitions` then strips in place, so the document carries the
post-extraction schemas; `self.models`'s schemas are likewise stripped, so
the updated instance state is returned too. -/
def generateSpec (be : Backend) (routes : List Route) (st : SpecState) :
    SpecDoc × SpecState :=
  let pt := processRoutes st.config.MODE st.selfId be st.models routes ([], [])
  let md := getModelDefinitions st.models []
  ({ openapi := st.config.OPENAPI_VERSION
     title := st.config.TITLE
     version := st.config.VERSION
     tags := pt.2.map Prod.snd
     paths := pt.1
     schemas := md.1
     definitions := md.2 },
   { st with models := md.1 })

/-- The `SpecTree.spec` property: `if not hasattr(self, '_spec'):
self._spec = self._generate_spec(); return self._spec`.  The third component
counts how many times `_generate_spec` ran during this access (0 or 1), so
that re-scanning can be observed. -/
def spec (be : Backend) (routes : List Route) (st : SpecState) :
    SpecDoc × SpecState × Nat :=
  match st.cachedSpec with
  | some d => (d, st, 0)
  | none =>
    let r := generateSpec be routes st
    (r.1, { r.2 with cachedSpec := some r.1 }, 1)

/-! ### Facts about definition hoisting -/

/-- All nested `definitions` entries of the registry, concatenated in
registry iteration order. -/
def allNested : Dict String ModelSchema → List (String × Nat)
  | [] => []
  | (_, s) :: rest =>
    (match s.definitions with | some d => d | none => []) ++ allNested rest

/-- Every stored schema with its `definitions` key removed. -/
def stripAll : Dict String ModelSchema → Dict String ModelSchema
  | [] => []
  | (nm, s) :: rest => (nm, { s with definitions := none }) :: stripAll rest

theorem insertAll_append {κ α : Type} [DecidableEq κ] (d : Dict κ α) (a b : List (κ × α)) :
    insertAll d (a ++ b) = insertAll (insertAll d a) b := by
  simp [insertAll, List.foldl_append]

theorem getModelDefinitions_eq (models : Dict String ModelSchema) (defs : Dict String Nat) :
    getModelDefinitions models defs = (stripAll models, insertAll defs (allNested models)) := by
  induction models generalizing defs with
  | nil => simp [getModelDefinitions, stripAll, allNested, insertAll]
  | cons p rest ih =>
    obtain ⟨nm, s⟩ := p
    cases hs : s.definitions with
    | some d =>
      simp only [getModelDefinitions, hs, ih, stripAll, allNested, insertAll_append]
    | none =>
      have hself : { s with definitions := none } = s := by
        cases s with | mk ds b => simp at hs; simp [hs]
      simp only [getModelDefinitions, hs, ih, stripAll, allNested, hself,
        List.nil_append]

theorem stripAll_definitions_eq_none (models : Dict String ModelSchema) :
    ∀ p ∈ stripAll models, (p.2).definitions = none := by
  induction models with
  | nil => intro p hp; simp [stripAll] at hp
  | cons q rest ih =>
    obtain ⟨nm, s⟩ := q
    intro p hp
    rcases List.mem_cons.1 hp with h | h
    · subst h; rfl
    · exact ih p h

/-- C1: after generation, no `components.schemas` entry still carries a
`definitions` key; the document's top-level `definitions` map has an entry
for every name that occurred in any registered schema's nested
`definitions`, and the value stored for a name is the one from the
last nested binding of that name in registry iteration order (later-iterated
schemas overwrite earlier ones). -/
theorem spec_hoists_nested_definitions (be : Backend) (routes : List Route)
    (st : SpecState) :
    (∀ p ∈ ((generateSpec be routes st).1).schemas, (p.2).definitions = none) ∧
    (∀ k v, (k, v) ∈ allNested st.models →
      dcontains ((generateSpec be routes st).1).definitions k = true) ∧
    (∀ k, dget ((generateSpec be routes st).1).definitions k = lastEntry (allNested st.models) k) := by
  have hgen : ((generateSpec be routes st).1).schemas = stripAll st.models ∧
      ((generateSpec be routes st).1).definitions = insertAll [] (allNested st.models) := by
    simp [generateSpec, getModelDefinitions_eq]
  refine ⟨?_, ?_, ?_⟩
  · rw [hgen.1]; exact stripAll_definitions_eq_none st.models
  · intro k v hmem
    rw [hgen.2]
    have h1 := lastEntry_isSome_of_mem (allNested st.models) k v hmem
    rw [dcontains, dget_insertAll]
    cases h : lastEntry (allNested st.models) k
    · rw [h] at h1; simp at h1
    · simp
  · intro k
    rw [hgen.2, dget_insertAll]
    cases h : lastEntry (allNested st.models) k <;> simp [dget]

/-! ### Bypass, memoization, pass-through, invalid-argument theorems -/

/-- C2: `greedy` never skips; `strict` includes a handler exactly when its
ownership marker is this instance; `normal` skips exactly the handlers
marked by a different instance (undecorated and self-decorated handlers are
included). -/
theorem bypass_mode_semantics (selfId : Nat) (f : Handler) :
    bypass "greedy" selfId f = false ∧
    (bypass "strict" selfId f = false ↔ f.meta.decorator = some selfId) ∧
    (bypass "normal" selfId f = true ↔
      ∃ y, f.meta.decorator = some y ∧ y ≠ selfId) := by
  refine ⟨rfl, ?_, ?_⟩
  · by_cases h : f.meta.decorator = some selfId <;> simp [bypass, h]
  · cases h : f.meta.decorator with
    | none => simp [bypass, h]
    | some d => by_cases hd : d = selfId <;> simp [bypass, h, hd]

/-- C3: the document is computed on first access (one `_generate_spec` run
when the `_spec` attribute is absent) and memoized: a second access on the
resulting instance returns the very same document with the state untouched
and zero further generation runs. -/
theorem spec_lazy_memoized (be : Backend) (routes : List Route) (st : SpecState) :
    spec be routes ((spec be routes st).2.1)
      = ((spec be routes st).1, (spec be routes st).2.1, 0) ∧
    (st.cachedSpec = none → (spec be routes st).2.2 = 1) := by
  cases h : st.cachedSpec <;> simp [spec, h]

/-- C6: the wrapper installed by the doc-only decorator is a pure
pass-through — on every handler and every argument tuple it returns exactly
what the handler returns, with no validation step around the call. -/
theorem doc_only_passthrough {α β : Type} (func : α → β) (args : α) :
    empty_validator func args = func args := rfl

theorem setRole_decorator (m : RouteMeta) (r : Role) (v : String) :
    (m.setRole r v).decorator = m.decorator := by
  cases r <;> rfl

theorem registerLoop_decorator (l : List (Role × Option SchemaArg))
    (st : Dict String ModelSchema) (meta : RouteMeta) :
    ((registerLoop st meta l).2.1).decorator = meta.decorator := by
  induction l generalizing st meta with
  | nil => rfl
  | cons p rest ih =>
    obtain ⟨role, arg⟩ := p
    match arg with
    | none => exact ih st meta
    | some (.model m) =>
      rw [show registerLoop st meta ((role, some (.model m)) :: rest)
            = registerLoop (dinsert st m.name m.schema) (meta.setRole role m.name) rest from rfl]
      rw [ih, setRole_decorator]
    | some (.notModel x) => rfl

/-- C7: decoration raises (the wrapper is never returned, and the ownership
stamp is never applied) precisely when one of `query`/`json`/`headers`/
`cookies` is not a `BaseModel` subclass; valid declarations are never
rejected. -/
theorem decoration_raises_iff_invalid_arg (selfId : Nat)
    (q j h c : Option SchemaArg) (resp : Option Resp) (tags : List String)
    (f : Handler) (st : Dict String ModelSchema) :
    ((baseDecorate selfId q j h c resp tags f st).2.2 = false ↔
      ∃ p ∈ roleArgs q j h c, ∃ x, p.2 = some (SchemaArg.notModel x)) ∧
    ((baseDecorate selfId q j h c resp tags f st).2.2 = false →
      ((baseDecorate selfId q j h c resp tags f st).2.1).meta.decorator
        = f.meta.decorator) := by
  have hiff := registerLoop_fails_iff (roleArgs q j h c) st f.meta
  have hdec := registerLoop_decorator (roleArgs q j h c) st f.meta
  rcases hr : registerLoop st f.meta (roleArgs q j h c) with ⟨st1, meta1, ok⟩
  rw [hr] at hiff hdec
  cases ok with
  | true =>
    have hnex : ¬ ∃ p ∈ roleArgs q j h c, ∃ x, p.2 = some (SchemaArg.notModel x) :=
      fun hx => by simpa using hiff.2 hx
    constructor
    · simp only [baseDecorate, hr]
      cases resp <;> simp [hnex]
    · intro hfalse
      exfalso
      simp only [baseDecorate, hr] at hfalse
      exact absurd hfalse (by simp)
  | false =>
    have hex := hiff.1 rfl
    constructor
    · simp only [baseDecorate, hr]
      simp [hex]
    · intro _
      simp only [baseDecorate, hr]
      exact hdec

/-! ### Registration-effect theorems -/

theorem mem_regModels (l : List (Role × Option SchemaArg)) (role : Role) (m : PyModel)
    (h : (role, some (SchemaArg.model m)) ∈ l) : (m.name, m.schema) ∈ regModels l := by
  induction l with
  | nil => simp at h
  | cons p rest ih =>
    obtain ⟨r0, arg⟩ := p
    rcases List.mem_cons.1 h with h' | h'
    · injection h' with h1 h2
      subst h1
      subst h2
      simp [regModels]
    · match arg with
      | none => exact ih h'
      | some (.model m') => exact List.mem_cons_of_mem _ (ih h')
      | some (.notModel x) => exact ih h'

theorem mem_regRoles (l : List (Role × Option SchemaArg)) (role : Role) (m : PyModel)
    (h : (role, some (SchemaArg.model m)) ∈ l) : (role, m.name) ∈ regRoles l := by
  induction l with
  | nil => simp at h
  | cons p rest ih =>
    obtain ⟨r0, arg⟩ := p
    rcases List.mem_cons.1 h with h' | h'
    · injection h' with h1 h2
      subst h1
      subst h2
      simp [regRoles]
    · match arg with
      | none => exact ih h'
      | some (.model m') => exact List.mem_cons_of_mem _ (ih h')
      | some (.notModel x) => exact ih h'

theorem regRoles_keys_sublist (l : List (Role × Option SchemaArg)) :
    List.Sublist ((regRoles l).map Prod.fst) (l.map Prod.fst) := by
  induction l with
  | nil => simp [regRoles]
  | cons p rest ih =>
    obtain ⟨role, arg⟩ := p
    match arg with
    | none => exact (by simpa [regRoles] using ih.trans (List.sublist_cons_self role _))
    | some (.model m) => simpa [regRoles] using ih.cons₂ role
    | some (.notModel x) =>
      exact (by simpa [regRoles] using ih.trans (List.sublist_cons_self role _))

theorem regRoles_roleArgs_keys_nodup (q j h c : Option SchemaArg) :
    ((regRoles (roleArgs q j h c)).map Prod.fst).Nodup := by
  have hsub := regRoles_keys_sublist (roleArgs q j h c)
  have hnd : ((roleArgs q j h c).map Prod.fst).Nodup := by simp [roleArgs]
  exact hnd.sublist hsub

/-- The `(name, schema)` pairs registered for the response models. -/
def respPairs : Option Resp → List (String × ModelSchema)
  | some rsp => rsp.models.map (fun m => (m.name, m.schema))
  | none => []

/-- The model names `_base` registers: the four role models in source order
followed by the response models. -/
def providedPairs (q j h c : Option SchemaArg) (resp : Option Resp) :
    List (String × ModelSchema) :=
  regModels (roleArgs q j h c) ++ respPairs resp

theorem baseDecorate_reg_true (selfId : Nat)
    (q j h c : Option SchemaArg) (resp : Option Resp) (tags : List String)
    (f : Handler) (st st1 : Dict String ModelSchema) (meta1 : RouteMeta)
    (hreg : registerLoop st f.meta (roleArgs q j h c) = (st1, meta1, true)) :
    baseDecorate selfId q j h c resp tags f st =
      (insertAll st1 (respPairs resp),
       { name := f.name, summary := f.summary, desc := f.desc,
         meta := { (match resp with
                    | some rsp => { meta1 with resp := some rsp }
                    | none => meta1) with
                   tags := (if tags ≠ [] then tags
                            else (match resp with
                                  | some rsp => { meta1 with resp := some rsp }
                                  | none => meta1).tags),
                   decorator := some selfId } },
       true) := by
  cases resp with
  | none =>
    by_cases ht : tags = [] <;>
      simp [baseDecorate, hreg, respPairs, insertAll, ht]
  | some rsp =>
    by_cases ht : tags = [] <;>
      simp [baseDecorate, hreg, respPairs, ht]

/-- C5: on a valid declaration whose model names do not collide, decoration
succeeds; each role model's schema ends up in the registry under the model's
type name and the wrapper's role attribute records that name; every model of
the response descriptor is registered and the descriptor itself is stored on
the wrapper; and the wrapper's ownership marker is the decorating instance. -/
theorem decoration_registers_models (selfId : Nat)
    (q j h c : Option SchemaArg) (resp : Option Resp) (tags : List String)
    (f : Handler) (st : Dict String ModelSchema)
    (hvalid : ∀ p ∈ roleArgs q j h c, validArg p.2)
    (hnames : ((providedPairs q j h c resp).map Prod.fst).Nodup) :
    (baseDecorate selfId q j h c resp tags f st).2.2 = true ∧
    (∀ role m, (role, some (SchemaArg.model m)) ∈ roleArgs q j h c →
      dget (baseDecorate selfId q j h c resp tags f st).1 m.name = some m.schema ∧
      ((baseDecorate selfId q j h c resp tags f st).2.1).meta.getRole role = some m.name) ∧
    (∀ rsp, resp = some rsp →
      (∀ m ∈ rsp.models,
        dget (baseDecorate selfId q j h c resp tags f st).1 m.name = some m.schema) ∧
      ((baseDecorate selfId q j h c resp tags f st).2.1).meta.resp = some rsp) ∧
    ((baseDecorate selfId q j h c resp tags f st).2.1).meta.decorator = some selfId := by
  have hreg := registerLoop_valid (roleArgs q j h c) st f.meta hvalid
  have hbd := baseDecorate_reg_true selfId q j h c resp tags f st _ _ hreg
  rw [providedPairs, List.map_append, List.nodup_append] at hnames
  obtain ⟨hnd1, hnd2, hdisj⟩ := hnames
  refine ⟨by rw [hbd], ?_, ?_, ?_⟩
  · intro role m hmem
    have hm1 : (m.name, m.schema) ∈ regModels (roleArgs q j h c) := mem_regModels _ _ _ hmem
    have hr1 : (role, m.name) ∈ regRoles (roleArgs q j h c) := mem_regRoles _ _ _ hmem
    have hget1 : dget (insertAll st (regModels (roleArgs q j h c))) m.name = some m.schema :=
      dget_insertAll_of_nodup_mem _ _ _ _ hnd1 hm1
    have hrole1 : (setRoles f.meta (regRoles (roleArgs q j h c))).getRole role = some m.name := by
      rw [getRole_setRoles,
        lastEntry_of_nodup_mem _ _ _ (regRoles_roleArgs_keys_nodup q j h c) hr1]
    constructor
    · rw [hbd]
      have hnot : m.name ∉ (respPairs resp).map Prod.fst :=
        fun hc => hdisj (List.mem_map_of_mem Prod.fst hm1) hc
      exact (dget_insertAll_of_not_mem _ _ _ hnot).trans hget1
    · rw [hbd]
      cases resp <;> cases role <;>
        simpa [RouteMeta.getRole] using (by simpa [RouteMeta.getRole] using hrole1)
  · intro rsp hresp
    subst hresp
    constructor
    · intro m hm
      have hmem2 : (m.name, m.schema) ∈ respPairs (some rsp) :=
        List.mem_map_of_mem (fun m => (m.name, m.schema)) hm
      rw [hbd]
      exact dget_insertAll_of_nodup_mem _ _ _ _ hnd2 hmem2
    · rw [hbd]
  · rw [hbd]

/-- C10: when a later role's argument is invalid, decoration raises, but the
models of the earlier, valid roles are already in the registry and their
names are already set on the wrapper, and these effects are kept. -/
theorem decoration_failure_not_atomic (selfId : Nat)
    (q j h c : Option SchemaArg) (resp : Option Resp) (tags : List String)
    (f : Handler) (st : Dict String ModelSchema)
    (pre post : List (Role × Option SchemaArg)) (role : Role) (x : Nat)
    (hsplit : roleArgs q j h c = pre ++ (role, some (SchemaArg.notModel x)) :: post)
    (hpre : ∀ p ∈ pre, validArg p.2)
    (hnd : ((regModels pre).map Prod.fst).Nodup) :
    (baseDecorate selfId q j h c resp tags f st).2.2 = false ∧
    (∀ nm sc, (nm, sc) ∈ regModels pre →
      dget (baseDecorate selfId q j h c resp tags f st).1 nm = some sc) ∧
    (∀ ro nm, (ro, nm) ∈ regRoles pre →
      ((baseDecorate selfId q j h c resp tags f st).2.1).meta.getRole ro = some nm) := by
  have hreg : registerLoop st f.meta (roleArgs q j h c)
      = (insertAll st (regModels pre), setRoles f.meta (regRoles pre), false) := by
    rw [hsplit]; exact registerLoop_stops_at_invalid pre post role x st f.meta hpre
  have hrnd : ((regRoles pre).map Prod.fst).Nodup := by
    have hsubpre : List.Sublist pre (roleArgs q j h c) := by
      rw [hsplit]; exact List.sublist_append_left pre _
    have h1 : List.Sublist ((regRoles pre).map Prod.fst) ((roleArgs q j h c).map Prod.fst) :=
      (regRoles_keys_sublist pre).trans (hsubpre.map Prod.fst)
    exact (by simp [roleArgs] : ((roleArgs q j h c).map Prod.fst).Nodup).sublist h1
  refine ⟨?_, ?_, ?_⟩
  · simp [baseDecorate, hreg]
  · intro nm sc hmem
    simp only [baseDecorate, hreg]
    exact dget_insertAll_of_nodup_mem _ _ _ _ hnd hmem
  · intro ro nm hmem
    simp only [baseDecorate, hreg]
    rw [getRole_setRoles, lastEntry_of_nodup_mem _ _ _ hrnd hmem]

/-! ### Wrapper identity -/

/-- Counterexample to the claim that decorating a handler returns the same
callable object: on a plain undecorated handler, the callable returned by
the decorator carries an ownership marker that the original handler does not
carry, so it is a different object. -/
theorem decorated_callable_differs_from_handler :
    (baseDecorate 0 none none none none none []
        { name := "h", summary := none, desc := none, meta := {} } []).2.1
      ≠ { name := "h", summary := none, desc := none, meta := {} } := by
  decide

/-- C8 (amended): the decorator attaches the metadata to a NEW wrapper
callable built around the handler, not to the handler itself: whenever
decoration succeeds, the returned callable carries this instance's ownership
marker, and whenever the handler had no ownership marker of its own, the
returned callable is a different object from the handler. -/
theorem decorator_returns_fresh_wrapper (selfId : Nat)
    (q j h c : Option SchemaArg) (resp : Option Resp) (tags : List String)
    (f : Handler) (st : Dict String ModelSchema)
    (hok : (baseDecorate selfId q j h c resp tags f st).2.2 = true) :
    ((baseDecorate selfId q j h c resp tags f st).2.1).meta.decorator = some selfId ∧
    (f.meta.decorator = none → (baseDecorate selfId q j h c resp tags f st).2.1 ≠ f) := by
  rcases hr : registerLoop st f.meta (roleArgs q j h c) with ⟨st1, meta1, ok⟩
  cases ok with
  | false =>
    exfalso
    simp only [baseDecorate, hr] at hok
    exact absurd hok (by simp)
  | true =>
    have hbd := baseDecorate_reg_true selfId q j h c resp tags f st _ _ hr
    have hdec : ((baseDecorate selfId q j h c resp tags f st).2.1).meta.decorator
        = some selfId := by rw [hbd]
    refine ⟨hdec, fun hnone heq => ?_⟩
    rw [heq, hnone] at hdec
    simp at hdec

/-! ### Paths-map construction facts -/

/-- Lookup of the operation stored for `(path, method)` in the nested paths
map. -/
def nestedGet (paths : Dict String (Dict String Operation)) (p m : String) :
    Option Operation :=
  (dget paths p).bind (fun inner => dget inner m)

/-- The `routes[path][method.lower()] = op` writes the inner loop performs
for a given route's entry list, in order, keyed by `(path, lowercased
method)`. -/
def entryWrites (mode : String) (selfId : Nat) (be : Backend)
    (models : Dict String ModelSchema) (path : String) (params : List Nat)
    (entries : List RouteEntry) : List ((String × String) × Operation) :=
  entries.filterMap (fun e =>
    if skipEntry mode selfId e then none
    else some ((path, (pyLower e.method)), mkOp be models params e.method e.func))

/-- All writes of `_generate_spec`'s nested loops, in execution order. -/
def allWrites (mode : String) (selfId : Nat) (be : Backend)
    (models : Dict String ModelSchema) : List Route → List ((String × String) × Operation)
  | [] => []
  | r :: rest =>
    entryWrites mode selfId be models r.path r.parameters r.entries
      ++ allWrites mode selfId be models rest

theorem nestedGet_touch (paths : Dict String (Dict String Operation))
    (p0 p m : String) :
    nestedGet (dinsert paths p0 ((dget paths p0).getD [])) p m = nestedGet paths p m := by
  by_cases h : p0 = p
  · subst h
    rw [nestedGet, dget_dinsert_self]
    cases hg : dget paths p0 with
    | none => simp [nestedGet, hg, dget]
    | some inner => simp [nestedGet, hg]
  · rw [nestedGet, dget_dinsert_ne _ _ _ _ h, nestedGet]

theorem nestedGet_write (paths : Dict String (Dict String Operation))
    (p0 m0 p m : String) (op : Operation) :
    nestedGet (dinsert paths p0 (dinsert ((dget paths p0).getD []) m0 op)) p m =
      if (p0, m0) = (p, m) then some op else nestedGet paths p m := by
  by_cases hp : p0 = p
  · subst hp
    rw [nestedGet, dget_dinsert_self]
    by_cases hm : m0 = m
    · subst hm
      simp [dget_dinsert_self]
    · rw [Option.some_bind, dget_dinsert_ne _ _ _ _ hm]
      have : ¬ ((p0, m0) = (p0, m)) := by simp [hm]
      rw [if_neg this]
      cases hg : dget paths p0 with
      | none => simp [nestedGet, hg, dget]
      | some inner => simp [nestedGet, hg]
  · have : ¬ ((p0, m0) = (p, m)) := by simp [hp]
    rw [if_neg this, nestedGet, dget_dinsert_ne _ _ _ _ hp, nestedGet]

theorem processEntries_nestedGet (mode : String) (selfId : Nat) (be : Backend)
    (models : Dict String ModelSchema) (path : String) (params : List Nat)
    (entries : List RouteEntry)
    (paths : Dict String (Dict String Operation)) (tags : Dict String String)
    (p m : String) :
    nestedGet (processEntries mode selfId be models path params entries (paths, tags)).1 p m =
      match lastEntry (entryWrites mode selfId be models path params entries) (p, m) with
      | some op => some op
      | none => nestedGet paths p m := by
  induction entries generalizing paths tags with
  | nil => simp [processEntries, entryWrites, lastEntry]
  | cons e rest ih =>
    by_cases hs : skipEntry mode selfId e
    · rw [show processEntries mode selfId be models path params (e :: rest) (paths, tags)
            = processEntries mode selfId be models path params rest (paths, tags) from by
          simp [processEntries, hs]]
      rw [ih]
      rw [show entryWrites mode selfId be models path params (e :: rest)
            = entryWrites mode selfId be models path params rest from by
          simp [entryWrites, hs]]
    · rw [show processEntries mode selfId be models path params (e :: rest) (paths, tags)
            = processEntries mode selfId be models path params rest
                (dinsert paths path
                  (dinsert ((dget paths path).getD []) (pyLower e.method)
                    (mkOp be models params e.method e.func)),
                 updateTags tags e.func.meta.tags) from by
          simp [processEntries, hs]]
      rw [ih]
      rw [show entryWrites mode selfId be models path params (e :: rest)
            = ((path, (pyLower e.method)), mkOp be models params e.method e.func)
                :: entryWrites mode selfId be models path params rest from by
          simp [entryWrites, hs]]
      cases hrest : lastEntry (entryWrites mode selfId be models path params rest) (p, m) with
      | some op => simp [lastEntry, hrest]
      | none =>
        simp only [lastEntry, hrest]
        rw [nestedGet_write]
        by_cases hk : (path, (pyLower e.method)) = (p, m) <;> simp [hk]

theorem processRoutes_nestedGet (mode : String) (selfId : Nat) (be : Backend)
    (models : Dict String ModelSchema) (routes : List Route)
    (paths : Dict String (Dict String Operation)) (tags : Dict String String)
    (p m : String) :
    nestedGet (processRoutes mode selfId be models routes (paths, tags)).1 p m =
      match lastEntry (allWrites mode selfId be models routes) (p, m) with
      | some op => some op
      | none => nestedGet paths p m := by
  induction routes generalizing paths tags with
  | nil => simp [processRoutes, allWrites, lastEntry]
  | cons r rest ih =>
    rw [show processRoutes mode selfId be models (r :: rest) (paths, tags)
          = processRoutes mode selfId be models rest
              (processEntries mode selfId be models r.path r.parameters r.entries
                (dinsert paths r.path ((dget paths r.path).getD []), tags)) from rfl]
    rcases hacc : processEntries mode selfId be models r.path r.parameters r.entries
      (dinsert paths r.path ((dget paths r.path).getD []), tags) with ⟨paths1, tags1⟩
    rw [ih]
    have h3 := processEntries_nestedGet mode selfId be models r.path r.parameters r.entries
      (dinsert paths r.path ((dget paths r.path).getD [])) tags p m
    rw [hacc] at h3
    simp only at h3
    rw [show allWrites mode selfId be models (r :: rest)
          = entryWrites mode selfId be models r.path r.parameters r.entries
              ++ allWrites mode selfId be models rest from rfl]
    rw [lastEntry_append]
    cases hrest : lastEntry (allWrites mode selfId be models rest) (p, m) with
    | some op => simp
    | none =>
      simp only
      rw [h3]
      cases he : lastEntry (entryWrites mode selfId be models r.path r.parameters r.entries)
        (p, m) with
      | some op => simp
      | none => simp [nestedGet_touch]

/-! ### Dict key uniqueness through the loops -/

/-- A dict built only by `dinsert` has pairwise distinct keys. -/
def keysNodup {κ α : Type} (d : Dict κ α) : Prop := (d.map Prod.fst).Nodup

theorem mem_keys_dinsert {κ α : Type} [DecidableEq κ] (d : Dict κ α) (k a : κ) (v : α) :
    a ∈ (dinsert d k v).map Prod.fst ↔ a ∈ d.map Prod.fst ∨ a = k := by
  induction d with
  | nil => simp [dinsert]
  | cons p rest ih =>
    obtain ⟨k0, v0⟩ := p
    by_cases h : k0 = k
    · subst h
      rw [show dinsert ((k0, v0) :: rest) k0 v = (k0, v) :: rest from by simp [dinsert]]
      simp only [List.map_cons, List.mem_cons]
      tauto
    · rw [show dinsert ((k0, v0) :: rest) k v = (k0, v0) :: dinsert rest k v from by
        simp [dinsert, h]]
      simp only [List.map_cons, List.mem_cons, ih]
      tauto

theorem keysNodup_dinsert {κ α : Type} [DecidableEq κ] (d : Dict κ α) (k : κ) (v : α)
    (h : keysNodup d) : keysNodup (dinsert d k v) := by
  induction d with
  | nil => simp [keysNodup, dinsert]
  | cons p rest ih =>
    obtain ⟨k0, v0⟩ := p
    rw [keysNodup, List.map_cons, List.nodup_cons] at h
    by_cases hk : k0 = k
    · subst hk
      simpa [keysNodup, dinsert] using h
    · rw [keysNodup, dinsert, if_neg hk, List.map_cons, List.nodup_cons]
      constructor
      · rw [mem_keys_dinsert]
        push_neg
        exact ⟨h.1, hk⟩
      · exact ih h.2

theorem mem_of_mem_dinsert {κ α : Type} [DecidableEq κ] (d : Dict κ α) (k : κ) (v : α)
    (pr : κ × α) (h : pr ∈ dinsert d k v) : pr = (k, v) ∨ pr ∈ d := by
  induction d with
  | nil => simpa [dinsert] using h
  | cons p rest ih =>
    obtain ⟨k0, v0⟩ := p
    by_cases hk : k0 = k
    · subst hk
      rw [dinsert, if_pos rfl] at h
      rcases List.mem_cons.1 h with h' | h'
      · exact Or.inl h'
      · exact Or.inr (List.mem_cons_of_mem _ h')
    · rw [dinsert, if_neg hk] at h
      rcases List.mem_cons.1 h with h' | h'
      · exact Or.inr (h' ▸ List.mem_cons_self _ _)
      · rcases ih h' with h'' | h''
        · exact Or.inl h''
        · exact Or.inr (List.mem_cons_of_mem _ h'')

theorem dget_mem {κ α : Type} [DecidableEq κ] (d : Dict κ α) (k : κ) (v : α)
    (h : dget d k = some v) : (k, v) ∈ d := by
  induction d with
  | nil => simp [dget] at h
  | cons p rest ih =>
    obtain ⟨k0, v0⟩ := p
    by_cases hk : k0 = k
    · subst hk
      rw [dget, if_pos rfl] at h
      injection h with h
      subst h
      exact List.mem_cons_self _ _
    · rw [dget, if_neg hk] at h
      exact List.mem_cons_of_mem _ (ih h)

/-- Well-formedness of the nested paths map: the outer dict and every inner
dict have pairwise distinct keys (so each `(path, method)` pair indexes at
most one operation object). -/
def pathsWF (paths : Dict String (Dict String Operation)) : Prop :=
  keysNodup paths ∧ ∀ pr ∈ paths, keysNodup pr.2

theorem pathsWF_touch (paths : Dict String (Dict String Operation)) (p : String)
    (h : pathsWF paths) : pathsWF (dinsert paths p ((dget paths p).getD [])) := by
  refine ⟨keysNodup_dinsert _ _ _ h.1, ?_⟩
  intro pr hpr
  rcases mem_of_mem_dinsert _ _ _ _ hpr with h' | h'
  · subst h'
    cases hg : dget paths p with
    | none => simp [keysNodup]
    | some inner => exact h.2 (p, inner) (dget_mem _ _ _ hg)
  · exact h.2 pr h'

theorem pathsWF_write (paths : Dict String (Dict String Operation)) (p m : String)
    (op : Operation) (h : pathsWF paths) :
    pathsWF (dinsert paths p (dinsert ((dget paths p).getD []) m op)) := by
  refine ⟨keysNodup_dinsert _ _ _ h.1, ?_⟩
  intro pr hpr
  rcases mem_of_mem_dinsert _ _ _ _ hpr with h' | h'
  · subst h'
    apply keysNodup_dinsert
    cases hg : dget paths p with
    | none => simp [keysNodup]
    | some inner => exact h.2 (p, inner) (dget_mem _ _ _ hg)
  · exact h.2 pr h'

theorem processEntries_WF (mode : String) (selfId : Nat) (be : Backend)
    (models : Dict String ModelSchema) (path : String) (params : List Nat)
    (entries : List RouteEntry)
    (paths : Dict String (Dict String Operation)) (tags : Dict String String)
    (h : pathsWF paths) :
    pathsWF (processEntries mode selfId be models path params entries (paths, tags)).1 := by
  induction entries generalizing paths tags with
  | nil => exact h
  | cons e rest ih =>
    by_cases hs : skipEntry mode selfId e
    · rw [show processEntries mode selfId be models path params (e :: rest) (paths, tags)
            = processEntries mode selfId be models path params rest (paths, tags) from by
          simp [processEntries, hs]]
      exact ih _ _ h
    · rw [show processEntries mode selfId be models path params (e :: rest) (paths, tags)
            = processEntries mode selfId be models path params rest
                (dinsert paths path
                  (dinsert ((dget paths path).getD []) (pyLower e.method)
                    (mkOp be models params e.method e.func)),
                 updateTags tags e.func.meta.tags) from by
          simp [processEntries, hs]]
      exact ih _ _ (pathsWF_write paths path _ _ h)

theorem processRoutes_WF (mode : String) (selfId : Nat) (be : Backend)
    (models : Dict String ModelSchema) (routes : List Route)
    (paths : Dict String (Dict String Operation)) (tags : Dict String String)
    (h : pathsWF paths) :
    pathsWF (processRoutes mode selfId be models routes (paths, tags)).1 := by
  induction routes generalizing paths tags with
  | nil => exact h
  | cons r rest ih =>
    rw [show processRoutes mode selfId be models (r :: rest) (paths, tags)
          = processRoutes mode selfId be models rest
              (processEntries mode selfId be models r.path r.parameters r.entries
                (dinsert paths r.path ((dget paths r.path).getD []), tags)) from rfl]
    rcases hacc : processEntries mode selfId be models r.path r.parameters r.entries
      (dinsert paths r.path ((dget paths r.path).getD []), tags) with ⟨paths1, tags1⟩
    have h1 := processEntries_WF mode selfId be models r.path r.parameters r.entries
      (dinsert paths r.path ((dget paths r.path).getD [])) tags (pathsWF_touch paths r.path h)
    rw [hacc] at h1
    exact ih paths1 tags1 h1

theorem mem_allWrites (mode : String) (selfId : Nat) (be : Backend)
    (models : Dict String ModelSchema) (routes : List Route) (r : Route) (e : RouteEntry)
    (hr : r ∈ routes) (he : e ∈ r.entries) (hs : skipEntry mode selfId e = false) :
    ((r.path, (pyLower e.method)), mkOp be models r.parameters e.method e.func)
      ∈ allWrites mode selfId be models routes := by
  induction routes with
  | nil => simp at hr
  | cons r' rest ih =>
    rcases List.mem_cons.1 hr with h' | h'
    · subst h'
      apply List.mem_append_left
      rw [entryWrites]
      exact List.mem_filterMap.2 ⟨e, he, by simp [hs]⟩
    · exact List.mem_append_right _ (ih h')

/-- C4: when the non-bypassed registrations write pairwise distinct
`(path, method)` keys, the generated `paths` map holds, for each such
registration, exactly the operation dict `_generate_spec` builds for it —
whose `operationID` is the handler name and the lowercased method joined by
a double underscore — and both dict levels have pairwise distinct keys
(exactly one operation object per pair). -/
theorem generated_paths_operations (be : Backend) (routes : List Route) (st : SpecState)
    (hnd : ((allWrites st.config.MODE st.selfId be st.models routes).map Prod.fst).Nodup)
    (r : Route) (e : RouteEntry) (hr : r ∈ routes) (he : e ∈ r.entries)
    (hs : skipEntry st.config.MODE st.selfId e = false) :
    nestedGet ((generateSpec be routes st).1).paths r.path (pyLower e.method)
      = some (mkOp be st.models r.parameters e.method e.func) ∧
    (mkOp be st.models r.parameters e.method e.func).operationID
      = e.func.name ++ "__" ++ (pyLower e.method) ∧
    pathsWF ((generateSpec be routes st).1).paths := by
  have hpaths : ((generateSpec be routes st).1).paths
      = (processRoutes st.config.MODE st.selfId be st.models routes ([], [])).1 := rfl
  refine ⟨?_, rfl, ?_⟩
  · rw [hpaths, processRoutes_nestedGet]
    rw [lastEntry_of_nodup_mem _ _ _ hnd
      (mem_allWrites st.config.MODE st.selfId be st.models routes r e hr he hs)]
  · rw [hpaths]
    exact processRoutes_WF _ _ _ _ _ _ _ ⟨by simp [keysNodup], by simp⟩

/-! ### Bypassed routes keep their path -/

theorem processEntries_contains (mode : String) (selfId : Nat) (be : Backend)
    (models : Dict String ModelSchema) (path : String) (params : List Nat)
    (entries : List RouteEntry)
    (paths : Dict String (Dict String Operation)) (tags : Dict String String)
    (p : String) (h : dcontains paths p = true) :
    dcontains (processEntries mode selfId be models path params entries (paths, tags)).1 p
      = true := by
  induction entries generalizing paths tags with
  | nil => exact h
  | cons e rest ih =>
    by_cases hs : skipEntry mode selfId e
    · rw [show processEntries mode selfId be models path params (e :: rest) (paths, tags)
            = processEntries mode selfId be models path params rest (paths, tags) from by
          simp [processEntries, hs]]
      exact ih _ _ h
    · rw [show processEntries mode selfId be models path params (e :: rest) (paths, tags)
            = processEntries mode selfId be models path params rest
                (dinsert paths path
                  (dinsert ((dget paths path).getD []) (pyLower e.method)
                    (mkOp be models params e.method e.func)),
                 updateTags tags e.func.meta.tags) from by
          simp [processEntries, hs]]
      exact ih _ _ (by rw [dcontains_dinsert, h, Bool.or_true])

theorem processRoutes_contains_of (mode : String) (selfId : Nat) (be : Backend)
    (models : Dict String ModelSchema) (routes : List Route)
    (paths : Dict String (Dict String Operation)) (tags : Dict String String)
    (p : String) (h : dcontains paths p = true) :
    dcontains (processRoutes mode selfId be models routes (paths, tags)).1 p = true := by
  induction routes generalizing paths tags with
  | nil => exact h
  | cons r rest ih =>
    rw [show processRoutes mode selfId be models (r :: rest) (paths, tags)
          = processRoutes mode selfId be models rest
              (processEntries mode selfId be models r.path r.parameters r.entries
                (dinsert paths r.path ((dget paths r.path).getD []), tags)) from rfl]
    rcases hacc : processEntries mode selfId be models r.path r.parameters r.entries
      (dinsert paths r.path ((dget paths r.path).getD []), tags) with ⟨paths1, tags1⟩
    have h1 := processEntries_contains mode selfId be models r.path r.parameters r.entries
      (dinsert paths r.path ((dget paths r.path).getD [])) tags p
      (by rw [dcontains_dinsert, h, Bool.or_true])
    rw [hacc] at h1
    exact ih paths1 tags1 h1

theorem processRoutes_contains (mode : String) (selfId : Nat) (be : Backend)
    (models : Dict String ModelSchema) (routes : List Route)
    (paths : Dict String (Dict String Operation)) (tags : Dict String String)
    (r : Route) (hr : r ∈ routes) :
    dcontains (processRoutes mode selfId be models routes (paths, tags)).1 r.path = true := by
  induction routes generalizing paths tags with
  | nil => simp at hr
  | cons r' rest ih =>
    rw [show processRoutes mode selfId be models (r' :: rest) (paths, tags)
          = processRoutes mode selfId be models rest
              (processEntries mode selfId be models r'.path r'.parameters r'.entries
                (dinsert paths r'.path ((dget paths r'.path).getD []), tags)) from rfl]
    rcases hacc : processEntries mode selfId be models r'.path r'.parameters r'.entries
      (dinsert paths r'.path ((dget paths r'.path).getD []), tags) with ⟨paths1, tags1⟩
    rcases List.mem_cons.1 hr with h' | h'
    · subst h'
      have h1 := processEntries_contains mode selfId be models r.path r.parameters r.entries
        (dinsert paths r.path ((dget paths r.path).getD [])) tags r.path
        (by rw [dcontains_dinsert]; simp)
      rw [hacc] at h1
      exact processRoutes_contains_of mode selfId be models rest paths1 tags1 r.path h1
    · exact ih paths1 tags1 h'

theorem processEntries_allSkipped (mode : String) (selfId : Nat) (be : Backend)
    (models : Dict String ModelSchema) (path : String) (params : List Nat)
    (entries : List RouteEntry)
    (paths : Dict String (Dict String Operation)) (tags : Dict String String)
    (h : ∀ e ∈ entries, skipEntry mode selfId e = true) :
    processEntries mode selfId be models path params entries (paths, tags) = (paths, tags) := by
  induction entries with
  | nil => rfl
  | cons e rest ih =>
    have hs : skipEntry mode selfId e = true := h e (List.mem_cons_self _ _)
    rw [show processEntries mode selfId be models path params (e :: rest) (paths, tags)
          = processEntries mode selfId be models path params rest (paths, tags) from by
        simp [processEntries, hs]]
    exact ih (fun e' he' => h e' (List.mem_cons_of_mem _ he'))

theorem processEntries_dget_other (mode : String) (selfId : Nat) (be : Backend)
    (models : Dict String ModelSchema) (path : String) (params : List Nat)
    (entries : List RouteEntry)
    (paths : Dict String (Dict String Operation)) (tags : Dict String String)
    (p : String) (hne : path ≠ p) :
    dget (processEntries mode selfId be models path params entries (paths, tags)).1 p
      = dget paths p := by
  induction entries generalizing paths tags with
  | nil => rfl
  | cons e rest ih =>
    by_cases hs : skipEntry mode selfId e
    · rw [show processEntries mode selfId be models path params (e :: rest) (paths, tags)
            = processEntries mode selfId be models path params rest (paths, tags) from by
          simp [processEntries, hs]]
      exact ih _ _
    · rw [show processEntries mode selfId be models path params (e :: rest) (paths, tags)
            = processEntries mode selfId be models path params rest
                (dinsert paths path
                  (dinsert ((dget paths path).getD []) (pyLower e.method)
                    (mkOp be models params e.method e.func)),
                 updateTags tags e.func.meta.tags) from by
          simp [processEntries, hs]]
      rw [ih _ _, dget_dinsert_ne _ _ _ _ hne]

theorem processRoutes_keeps_empty (mode : String) (selfId : Nat) (be : Backend)
    (models : Dict String ModelSchema) (routes : List Route)
    (paths : Dict String (Dict String Operation)) (tags : Dict String String)
    (p : String)
    (hall : ∀ r' ∈ routes, r'.path = p → ∀ e ∈ r'.entries, skipEntry mode selfId e = true)
    (hacc : (dget paths p = none ∧ p ∈ routes.map Route.path) ∨ dget paths p = some []) :
    dget (processRoutes mode selfId be models routes (paths, tags)).1 p = some [] := by
  induction routes generalizing paths tags with
  | nil =>
    rcases hacc with ⟨_, hmem⟩ | h
    · simp at hmem
    · exact h
  | cons r rest ih =>
    rw [show processRoutes mode selfId be models (r :: rest) (paths, tags)
          = processRoutes mode selfId be models rest
              (processEntries mode selfId be models r.path r.parameters r.entries
                (dinsert paths r.path ((dget paths r.path).getD []), tags)) from rfl]
    have hallrest : ∀ r' ∈ rest, r'.path = p → ∀ e ∈ r'.entries, skipEntry mode selfId e = true :=
      fun r' hr' => hall r' (List.mem_cons_of_mem _ hr')
    by_cases hp : r.path = p
    · have hskip : ∀ e ∈ r.entries, skipEntry mode selfId e = true :=
        hall r (List.mem_cons_self _ _) hp
      rw [processEntries_allSkipped mode selfId be models r.path r.parameters r.entries _ _ hskip]
      have hget0 : dget (dinsert paths r.path ((dget paths r.path).getD [])) p = some [] := by
        rw [hp] at *
        rw [dget_dinsert_self]
        rcases hacc with ⟨hn, _⟩ | hs
        · rw [hn]; rfl
        · rw [hs]; rfl
      exact ih _ _ hallrest (Or.inr hget0)
    · rcases hpe : processEntries mode selfId be models r.path r.parameters r.entries
        (dinsert paths r.path ((dget paths r.path).getD []), tags) with ⟨paths1, tags1⟩
      have hkeep : dget paths1 p = dget paths p := by
        have h1 := processEntries_dget_other mode selfId be models r.path r.parameters
          r.entries (dinsert paths r.path ((dget paths r.path).getD [])) tags p hp
        rw [hpe] at h1
        rw [h1, dget_dinsert_ne _ _ _ _ hp]
      apply ih paths1 tags1 hallrest
      rcases hacc with ⟨hn, hmem⟩ | hs
      · refine Or.inl ⟨hkeep.trans hn, ?_⟩
        rw [List.map_cons] at hmem
        rcases List.mem_cons.1 hmem with h' | h'
        · exact absurd h'.symm hp
        · exact h'
      · exact Or.inr (hkeep.trans hs)

/-- C9: every discovered route's parsed path is a key of the generated
`paths` map; and when route paths are pairwise distinct and every
`(method, handler)` pair of the route is bypassed, that key maps to the
empty object (no operations). -/
theorem bypassed_route_path_still_present (be : Backend) (routes : List Route)
    (st : SpecState) (r : Route) (hr : r ∈ routes) :
    dcontains ((generateSpec be routes st).1).paths r.path = true ∧
    ((routes.map Route.path).Nodup →
      (∀ e ∈ r.entries, skipEntry st.config.MODE st.selfId e = true) →
      dget ((generateSpec be routes st).1).paths r.path = some []) := by
  have hpaths : ((generateSpec be routes st).1).paths
      = (processRoutes st.config.MODE st.selfId be st.models routes ([], [])).1 := rfl
  constructor
  · rw [hpaths]
    exact processRoutes_contains _ _ _ _ _ _ _ r hr
  · intro hnd hskip
    rw [hpaths]
    apply processRoutes_keeps_empty
    · intro r' hr' hp' e he'
      have heq : r' = r := List.inj_on_of_nodup_map hnd hr' hr (by rw [hp'])
      subst heq
      exact hskip e he'
    · exact Or.inl ⟨rfl, List.mem_map_of_mem Route.path hr⟩

/-! ## Concrete sample data -/

/-- A backend whose external parsing helpers return fixed opaque values. -/
def be0 : Backend :=
  { parseParams := fun _ _ _ => 0, parseResp := fun _ => 0, parseRequest := fun _ => none }

/-- A plain undecorated handler. -/
def h0 : Handler := { name := "h" }

/-- A query model. -/
def mQ : PyModel := { name := "Query", schema := { definitions := none, body := 1 } }

/-- A response model carrying a nested definition named `Sub`. -/
def mR : PyModel :=
  { name := "Out", schema := { definitions := some [("Sub", 7)], body := 3 } }

def cfg0 : Config :=
  { MODE := "normal", TITLE := "t", VERSION := "0.1", OPENAPI_VERSION := "3.0.2" }

/-- An instance state holding one schema with a nested definition. -/
def st0 : SpecState :=
  { selfId := 0, config := cfg0, models := [("Out", mR.schema)], cachedSpec := none }

/-- A non-bypassed GET entry for `h0`. -/
def e0 : RouteEntry := { method := "GET", backendBypass := false, func := h0 }

def r0 : Route := { path := "/a", parameters := [], entries := [e0] }

/-- An entry excluded by the framework-level bypass. -/
def e1 : RouteEntry := { method := "GET", backendBypass := true, func := h0 }

def r1 : Route := { path := "/b", parameters := [], entries := [e1] }

/-! ## Witnesses -/

/-- Witness for C1 at a registry holding `Out` with nested `Sub`. -/
theorem spec_hoists_nested_definitions_witness :
    dcontains ((generateSpec be0 [] st0).1).definitions "Sub" = true := by
  exact (spec_hoists_nested_definitions be0 [] st0).2.1 "Sub" 7 (by decide)

/-- Witness for C3: generation runs exactly once on a fresh instance. -/
theorem spec_lazy_memoized_witness : (spec be0 [] st0).2.2 = 1 :=
  (spec_lazy_memoized be0 [] st0).2 rfl

/-- Witness for C4 at a single GET route. -/
theorem generated_paths_operations_witness :
    nestedGet ((generateSpec be0 [r0] st0).1).paths r0.path (pyLower e0.method)
      = some (mkOp be0 st0.models r0.parameters e0.method e0.func) :=
  (generated_paths_operations be0 [r0] st0 (by decide) r0 e0 (by decide) (by decide)
    (by decide)).1

/-- Witness for C5: decorating with a query model and a response model. -/
theorem decoration_registers_models_witness :
    dget (baseDecorate 0 (some (SchemaArg.model mQ)) none none none
        (some { models := [mR] }) [] h0 []).1 mQ.name = some mQ.schema := by
  have hw := decoration_registers_models 0 (some (SchemaArg.model mQ)) none none none
    (some { models := [mR] }) [] h0 [] (by simp [roleArgs, validArg]) (by decide)
  exact (hw.2.1 Role.query mQ (by decide)).1

/-- Witness for C7: a non-model `query` argument makes decoration raise. -/
theorem decoration_raises_iff_invalid_arg_witness :
    (baseDecorate 0 (some (SchemaArg.notModel 0)) none none none none [] h0 []).2.2
      = false := by
  exact (decoration_raises_iff_invalid_arg 0 (some (SchemaArg.notModel 0)) none none none
    none [] h0 []).1.2 ⟨(Role.query, some (SchemaArg.notModel 0)), by decide, 0, rfl⟩

/-- Witness for the amended C8: the returned wrapper is marked and differs
from the undecorated handler. -/
theorem decorator_returns_fresh_wrapper_witness :
    ((baseDecorate 0 none none none none none [] h0 []).2.1).meta.decorator = some 0 ∧
    (baseDecorate 0 none none none none none [] h0 []).2.1 ≠ h0 := by
  have hw := decorator_returns_fresh_wrapper 0 none none none none none [] h0 [] (by decide)
  exact ⟨hw.1, hw.2 rfl⟩

/-- Witness for C9: a fully bypassed route still contributes its path, mapped
to the empty object. -/
theorem bypassed_route_path_still_present_witness :
    dget ((generateSpec be0 [r1] st0).1).paths r1.path = some [] := by
  have hw := bypassed_route_path_still_present be0 [r1] st0 r1 (by decide)
  exact hw.2 (by decide) (by decide)

/-- Witness for C10: with a valid query model and an invalid json argument,
decoration raises but the query model is already registered. -/
theorem decoration_failure_not_atomic_witness :
    (baseDecorate 0 (some (SchemaArg.model mQ)) (some (SchemaArg.notModel 5)) none none
        none [] h0 []).2.2 = false ∧
    dget (baseDecorate 0 (some (SchemaArg.model mQ)) (some (SchemaArg.notModel 5)) none none
        none [] h0 []).1 mQ.name = some mQ.schema := by
  have hw := decoration_failure_not_atomic 0 (some (SchemaArg.model mQ))
    (some (SchemaArg.notModel 5)) none none none [] h0 []
    [(Role.query, some (SchemaArg.model mQ))] [(Role.headers, none), (Role.cookies, none)]
    Role.json 5 rfl (by simp [validArg]) (by decide)
  exact ⟨hw.1, hw.2.1 mQ.name mQ.schema (by decide)⟩

end Spectree
